import Mathlib

/-!
Verification of the chimeric resource-cache subsystem: the composite
cache-key encoding (`FileOrRenderedTextKey`), the generic bounded LRU cache
semantics, the two-level font cache (`FontSystem`), and the window registry
(`ChimericSystem`).

Bytes are modelled as `Nat`; byte buffers as `List Nat`. Machine-integer
fields carry explicit `% 2^w` arithmetic where a width matters.
-/

deriving instance DecidableEq for Except

namespace Chimeric

/-- Little-endian byte encoding of a `u16` value (`point_size.to_le_bytes()`).
The value is a `Nat`; a genuine `u16` satisfies `n < 65536`. -/
def u16_le (n : Nat) : List Nat := [n % 256, n / 256 % 256]

/-- Little-endian byte encoding of a `u32` value (`wrap_width.to_le_bytes()`).
The value is a `Nat`; a genuine `u32` satisfies `n < 4294967296`. -/
def u32_le (n : Nat) : List Nat :=
  [n % 256, n / 256 % 256, n / 65536 % 256, n / 16777216 % 256]

/-- Sequential in-place writes into a pre-sized buffer: models the Rust
pattern `src.iter().for_each(|&byte| { data[index] = byte; index += 1; })`. -/
def writeSeq (buf : List Nat) (start : Nat) (src : List Nat) : List Nat :=
  match src with
  | [] => buf
  | b :: rest => writeSeq (buf.set start b) (start + 1) rest

namespace FileOrRenderedTextKey

/-- Models `FileOrRenderedTextKey::from_path`: allocates `1 + path.len()` bytes,
writes tag `0x00` at index 0, then the raw path bytes.  The `set_len` of the
uninitialized allocation is modelled as a zero-filled buffer; every index is
subsequently written. -/
def from_path (texture_path : List Nat) : List Nat :=
  let data_len := 1 + texture_path.length
  let data := List.replicate data_len 0
  let data := data.set 0 0x00
  writeSeq data 1 texture_path

/-- Models `FileOrRenderedTextKey::from_rendered_text`: tag `0x01`, the two
little-endian point-size bytes, the text bytes with their nul terminator
(`text.to_bytes_with_nul()`, modelled as `text ++ [0]`), then the font path
bytes, written sequentially into a buffer of exactly the right length. -/
def from_rendered_text (text : List Nat) (font_file : List Nat)
    (point_size : Nat) : List Nat :=
  let text_bytes := text ++ [0]
  let point_size_bytes := u16_le point_size
  let data_len := 1 + 2 + text_bytes.length + font_file.length
  let data := List.replicate data_len 0
  let data := data.set 0 0x01
  let data := writeSeq data 1 point_size_bytes
  let data := writeSeq data 3 text_bytes
  writeSeq data (3 + text_bytes.length) font_file

/-- Models `FileOrRenderedTextKey::from_rendered_wrapped_text`: tag `0x02`, two
point-size bytes, four wrap-width bytes, text bytes with nul terminator,
then the font path bytes. -/
def from_rendered_wrapped_text (text : List Nat) (font_file : List Nat)
    (point_size : Nat) (wrap_width : Nat) : List Nat :=
  let text_bytes := text ++ [0]
  let point_size_bytes := u16_le point_size
  let wrap_width_bytes := u32_le wrap_width
  let data_len := 1 + 2 + 4 + text_bytes.length + font_file.length
  let data := List.replicate data_len 0
  let data := data.set 0 0x02
  let data := writeSeq data 1 point_size_bytes
  let data := writeSeq data 3 wrap_width_bytes
  let data := writeSeq data 7 text_bytes
  writeSeq data (7 + text_bytes.length) font_file

end FileOrRenderedTextKey

/-- A structured key request: one of the three variants of
`FileOrRenderedTextKey`, with its field values. -/
inductive Request where
  | filePath (path : List Nat)
  | renderedText (text : List Nat) (path : List Nat) (point_size : Nat)
  | renderedWrappedText (text : List Nat) (path : List Nat) (point_size : Nat)
      (wrap_width : Nat)
deriving DecidableEq

/-- Well-formedness carried by the Rust types: a `CStr`'s interior bytes are
never nul, a point size is a `u16`, a wrap width is a `u32`. -/
def Request.wf : Request → Prop
  | .filePath _ => True
  | .renderedText t _ s => 0 ∉ t ∧ s < 65536
  | .renderedWrappedText t _ s w => 0 ∉ t ∧ s < 65536 ∧ w < 4294967296

instance (r : Request) : Decidable r.wf := by
  cases r <;> simp only [Request.wf] <;> infer_instance

/-- Dispatch a structured request to the constructor the source uses for it. -/
def Request.encode : Request → List Nat
  | .filePath p => FileOrRenderedTextKey.from_path p
  | .renderedText t p s => FileOrRenderedTextKey.from_rendered_text t p s
  | .renderedWrappedText t p s w =>
      FileOrRenderedTextKey.from_rendered_wrapped_text t p s w

/-- Modelled from the spec: the generic Bounded Cache — the `lru` crate's
`LruCache`, whose implementation is not part of this repository (only its
callers are). Entries are kept most-recently-used first; `cap` is the fixed
capacity N, set at construction and never resized. -/
structure LruCache (K V : Type) where
  cap : Nat
  entries : List (K × V)
deriving DecidableEq

namespace LruCache

variable {K V E : Type} [DecidableEq K]

/-- Modelled from the spec: a freshly constructed empty cache of capacity `cap`. -/
def empty (cap : Nat) : LruCache K V := ⟨cap, []⟩

def keys (c : LruCache K V) : List K := c.entries.map Prod.fst

def size (c : LruCache K V) : Nat := c.entries.length

/-- Well-formedness maintained by every operation: keys are distinct, the
entry count never exceeds the capacity, and the capacity is at least one
(the source constructs every cache from a `NonZeroUsize`). -/
def wf (c : LruCache K V) : Prop :=
  c.keys.Nodup ∧ c.size ≤ c.cap ∧ 1 ≤ c.cap

/-- Locate a key in the recency list, detaching its entry: returns the value
and the remaining entries in order. -/
def removeEntry : List (K × V) → K → Option (V × List (K × V))
  | [], _ => none
  | e :: rest, k =>
    if e.1 = k then some (e.2, rest)
    else match removeEntry rest k with
      | none => none
      | some (v, rest') => some (v, e :: rest')

/-- Modelled from the spec: admit a key not currently present at the
most-recently-used position, evicting and dropping the least-recently-used
entry first when the cache is full. -/
def insertNew (c : LruCache K V) (k : K) (v : V) : LruCache K V :=
  if c.entries.length = c.cap then
    ⟨c.cap, (k, v) :: c.entries.dropLast⟩
  else
    ⟨c.cap, (k, v) :: c.entries⟩

/-- Modelled from the spec: `put` — update and promote on hit, insert with
LRU eviction on miss. -/
def put (c : LruCache K V) (k : K) (v : V) : LruCache K V :=
  match removeEntry c.entries k with
  | some (_, rest) => ⟨c.cap, (k, v) :: rest⟩
  | none => c.insertNew k v

/-- Modelled from the spec: a lookup that promotes the entry to
most-recently-used on hit ("get counts as a use"). -/
def get (c : LruCache K V) (k : K) : Option V × LruCache K V :=
  match removeEntry c.entries k with
  | some (v, rest) => (some v, ⟨c.cap, (k, v) :: rest⟩)
  | none => (none, c)

/-- Modelled from the spec: `try_get_or_insert` — on hit, return the existing
entry promoted, without invoking `compute`; on miss, invoke `compute` once:
propagate its failure leaving the cache unchanged, insert its result
otherwise. The third component counts invocations of `compute`. -/
def try_get_or_insert (c : LruCache K V) (k : K)
    (compute : Unit → Except E V) : Except E V × LruCache K V × Nat :=
  match removeEntry c.entries k with
  | some (v, rest) => (.ok v, ⟨c.cap, (k, v) :: rest⟩, 0)
  | none =>
    match compute () with
    | .error e => (.error e, c, 1)
    | .ok v => (.ok v, c.insertNew k v, 1)

/-- Modelled from the spec: the infallible get-or-insert
(`get_or_insert_mut_ref`) — on miss the freshly constructed `default` value
is admitted with the usual eviction rule. -/
def get_or_insert (c : LruCache K V) (k : K) (default : V) :
    V × LruCache K V :=
  match removeEntry c.entries k with
  | some (v, rest) => (v, ⟨c.cap, (k, v) :: rest⟩)
  | none => (default, c.insertNew k default)

/-- Modelled from the spec: `peek_mru` — a `&self` accessor returning the
most-recently-used entry without changing order; modelled state-passing to
make "changes nothing" a statement rather than a typing artifact. -/
def peek_mru (c : LruCache K V) : Option (K × V) × LruCache K V :=
  (c.entries.head?, c)

/-- Modelled from the spec: unconditional removal. -/
def remove (c : LruCache K V) (k : K) : Option V × LruCache K V :=
  match removeEntry c.entries k with
  | some (v, rest) => (some v, ⟨c.cap, rest⟩)
  | none => (none, c)

/-- Insert a sequence of key-value pairs in order with `put`. -/
def putList (c : LruCache K V) (kvs : List (K × V)) : LruCache K V :=
  kvs.foldl (fun c e => c.put e.1 e.2) c

/-- The observable operations of the bounded cache, with a compute function
represented by its result. -/
inductive Op (K V E : Type) where
  | opPut (k : K) (v : V)
  | opGet (k : K)
  | opTryGetOrInsert (k : K) (r : Except E V)
  | opGetOrInsert (k : K) (v : V)
  | opPeekMru
  | opRemove (k : K)

/-- One cache operation, projected to its effect on the cache state. -/
def step (c : LruCache K V) : Op K V E → LruCache K V
  | .opPut k v => c.put k v
  | .opGet k => (c.get k).2
  | .opTryGetOrInsert k r => (c.try_get_or_insert k (fun _ => r)).2.1
  | .opGetOrInsert k v => (c.get_or_insert k v).2
  | .opPeekMru => c.peek_mru.2
  | .opRemove k => (c.remove k).2

end LruCache

/-- Replace the value of the most-recently-used entry in place: models the
`&mut` reference into the outer cache through which the source mutates the
inner cache it has just obtained (which is always at the MRU position). -/
def LruCache.setMruValue {K V : Type} (c : LruCache K V) (v : V) :
    LruCache K V :=
  ⟨c.cap, match c.entries with
    | [] => []
    | e :: t => (e.1, v) :: t⟩

/-- A parsed font at one point size (`Font` in font.rs): it holds a shared
reference to the font file's byte buffer (the `Rc<Box<[u8]>>`) and was opened
at its point size. The native `TTF_Font`/`SDL_RWops` handles carry no further
observable cache state and are omitted. -/
structure Font where
  font_file_content : List Nat
  point_size : Nat
deriving DecidableEq

/-- Models `Font::get_content`: the shared byte buffer. -/
def Font.get_content (f : Font) : List Nat := f.font_file_content

/-- Models `Font::new`: opens the shared bytes at a point size; success or failure
of the native `SDL_RWFromConstMem`/`TTF_OpenFontRW` calls is decided by the
`openFont` oracle. On success the font holds (a clone of) the shared bytes. -/
def Font.new (openFont : List Nat → Nat → Except String Unit)
    (point_size : Nat) (font_file_content : List Nat) : Except String Font :=
  match openFont font_file_content point_size with
  | .error e => .error e
  | .ok _ => .ok ⟨font_file_content, point_size⟩

/-- Models `FontSystem` (font_system.rs): the per-font inner capacity kept for
constructing new inner caches, and the outer cache from font file path to the
inner per-point-size cache of font objects. -/
structure FontSystem where
  num_font_objects_per_font : Nat
  num_font_objects : LruCache (List Nat) (LruCache Nat Font)
deriving DecidableEq

/-- Models `FontSystem::render`: gets or lazily creates the per-file inner cache in
the outer cache; obtains the shared file bytes by cloning them from the
most-recently-used cached font object if one exists (`peek_mru`), otherwise
reading the font file from storage; `try_get_or_insert`s the font object for
the requested point size (constructing it with `Font::new`); finally
rasterizes. External effects are oracles: `readFile` for storage,
`openFont` for `Font::new`'s native calls, `raster` for `Font::render`.
Returns the render result, the new state, and the number of storage reads
performed during the call. -/
def FontSystem.render {S : Type} (fs : FontSystem)
    (readFile : List Nat → Except String (List Nat))
    (openFont : List Nat → Nat → Except String Unit)
    (raster : Font → List Nat → Option Nat → Except String S)
    (font_file : List Nat) (point_size : Nat) (text : List Nat)
    (wrap_width : Option Nat) : Except String S × FontSystem × Nat :=
  let res1 := fs.num_font_objects.get_or_insert font_file
      (LruCache.empty fs.num_font_objects_per_font)
  let font_objects_for_font := res1.1
  let outer1 := res1.2
  match font_objects_for_font.peek_mru.1 with
  | some fo =>
    let font_data_rc := fo.2.get_content
    let res2 := font_objects_for_font.try_get_or_insert point_size
        (fun _ => Font.new openFont point_size font_data_rc)
    let outer2 := outer1.setMruValue res2.2.1
    match res2.1 with
    | .error e => (.error e, ⟨fs.num_font_objects_per_font, outer2⟩, 0)
    | .ok font =>
        (raster font text wrap_width, ⟨fs.num_font_objects_per_font, outer2⟩, 0)
  | none =>
    match readFile font_file with
    | .error e => (.error e, ⟨fs.num_font_objects_per_font, outer1⟩, 1)
    | .ok font_file_contents =>
      let font_data_rc := font_file_contents
      let res2 := font_objects_for_font.try_get_or_insert point_size
          (fun _ => Font.new openFont point_size font_data_rc)
      let outer2 := outer1.setMruValue res2.2.1
      match res2.1 with
      | .error e => (.error e, ⟨fs.num_font_objects_per_font, outer2⟩, 1)
      | .ok font =>
          (raster font text wrap_width, ⟨fs.num_font_objects_per_font, outer2⟩, 1)

/-- A per-window render system (render_system.rs): the texture cache keyed by
encoded `FileOrRenderedTextKey` bytes holding abstract texture handles, and
the abstract canvas/creator pair the textures are coupled to. -/
structure RenderSystem where
  textures : LruCache (List Nat) Nat
  cc : Nat
deriving DecidableEq

/-- Models `ChimericSystemSettings` (system.rs): the three cache capacities; each is
a `NonZeroUsize` in the source. -/
structure ChimericSystemSettings where
  num_point_sizes_per_font : Nat
  num_fonts : Nat
  num_textures_per_window : Nat
deriving DecidableEq

/-- Models `ChimericSystem` (system.rs): settings, the shared font system, and the
named window registry `windows: HashMap<String, RenderSystem>`, modelled as
an association list. -/
structure ChimericSystem where
  settings : ChimericSystemSettings
  font_system : FontSystem
  windows : List (String × RenderSystem)
deriving DecidableEq

/-- Models `ChimericSystem::add_window`: first builds the canvas/creator pair for
the window (`CanvasAndCreator::new`, which can fail — its outcome is the
`cc` argument), then inserts a fresh render system only if no window with
that name is registered; otherwise returns an error and changes nothing. -/
def ChimericSystem.add_window (st : ChimericSystem) (window_name : String)
    (cc : Except String Nat) : Except String Unit × ChimericSystem :=
  match cc with
  | .error e => (.error e, st)
  | .ok cc =>
    let sys : RenderSystem :=
      ⟨LruCache.empty st.settings.num_textures_per_window, cc⟩
    if window_name ∈ st.windows.map Prod.fst then
      (.error ("window \"" ++ window_name
        ++ "\" can't be created because it already exists"), st)
    else
      (.ok (), { st with windows := st.windows ++ [(window_name, sys)] })

/-- Models `ChimericSystem::remove_window`: removes the named window, or returns an
error leaving everything unchanged when no window has that name. -/
def ChimericSystem.remove_window (st : ChimericSystem)
    (window_name : String) : Except String Unit × ChimericSystem :=
  if window_name ∈ st.windows.map Prod.fst then
    (.ok (), { st with
      windows := st.windows.filter (fun e => !(e.1 == window_name)) })
  else
    (.error ("window \"" ++ window_name
      ++ "\" can't be removed because it does not exist"), st)

theorem set_at_append (pre : List Nat) (b r0 : Nat) (rt : List Nat) :
    (pre ++ r0 :: rt).set pre.length b = pre ++ b :: rt := by
  induction pre with
  | nil => rfl
  | cons a t ih => simp [List.set, ih]

theorem writeSeq_append (src : List Nat) : ∀ (pre rest : List Nat),
    src.length ≤ rest.length →
    writeSeq (pre ++ rest) pre.length src = pre ++ (src ++ rest.drop src.length) := by
  induction src with
  | nil => intro pre rest _; simp [writeSeq]
  | cons b s ih =>
    intro pre rest h
    cases rest with
    | nil => simp at h
    | cons r0 rt =>
      have h' : s.length ≤ rt.length := by simpa using h
      calc writeSeq (pre ++ r0 :: rt) pre.length (b :: s)
          = writeSeq ((pre ++ [b]) ++ rt) (pre ++ [b]).length s := by
            simp [writeSeq, set_at_append]
        _ = (pre ++ [b]) ++ (s ++ rt.drop s.length) := ih (pre ++ [b]) rt h'
        _ = pre ++ (b :: s ++ (r0 :: rt).drop (b :: s).length) := by simp

theorem writeSeq_replicate (pre src : List Nat) (k : Nat) :
    writeSeq (pre ++ List.replicate (src.length + k) 0) pre.length src
      = pre ++ src ++ List.replicate k 0 := by
  have h : src.length ≤ (List.replicate (src.length + k) 0).length := by simp
  have := writeSeq_append src pre (List.replicate (src.length + k) 0) h
  rw [this, List.drop_replicate]
  simp [List.append_assoc]

namespace FileOrRenderedTextKey

/-- The from_path fill loop produces tag `0x00` followed by the path bytes. -/
theorem from_path_eq (p : List Nat) : from_path p = 0x00 :: p := by
  show writeSeq ((List.replicate (1 + p.length) 0).set 0 0x00) 1 p = 0x00 :: p
  have h1 : (List.replicate (1 + p.length) 0).set 0 0x00
      = [0x00] ++ List.replicate (p.length + 0) 0 := by
    rw [Nat.add_comm]; simp [List.replicate_succ]
  rw [h1]
  have h3 := writeSeq_replicate [0x00] p 0
  simpa using h3

end FileOrRenderedTextKey

theorem writeSeq_replicate_start (pre src : List Nat) (k n m : Nat)
    (hn : n = pre.length) (hm : m = src.length + k) :
    writeSeq (pre ++ List.replicate m 0) n src
      = pre ++ (src ++ List.replicate k 0) := by
  subst hn; subst hm
  have h := writeSeq_replicate pre src k
  simpa [List.append_assoc] using h

namespace FileOrRenderedTextKey

/-- The from_rendered_text fill loop produces tag `0x01`, the two point-size
bytes, the nul-terminated text bytes, then the path bytes. -/
theorem from_rendered_text_eq (t p : List Nat) (s : Nat) :
    from_rendered_text t p s = 0x01 :: (u16_le s ++ ((t ++ [0]) ++ p)) := by
  simp only [from_rendered_text]
  generalize t ++ [0] = tb
  have hA : List.replicate (1 + 2 + tb.length + p.length) 0
      = 0 :: 0 :: 0 :: List.replicate (tb.length + p.length) 0 := by
    have h : 1 + 2 + tb.length + p.length = (tb.length + p.length) + 1 + 1 + 1 := by omega
    rw [h]; simp [List.replicate_succ]
  rw [hA]
  simp only [writeSeq, List.set]
  have hC : writeSeq
      (0x01 :: s % 256 :: s / 256 % 256 :: List.replicate (tb.length + p.length) 0) 3 tb
      = ([0x01, s % 256, s / 256 % 256] ++ tb) ++ List.replicate p.length 0 := by
    have h := writeSeq_replicate_start [0x01, s % 256, s / 256 % 256] tb p.length 3
      (tb.length + p.length) (by simp) rfl
    simpa [List.append_assoc] using h
  rw [hC]
  have hD := writeSeq_replicate_start ([0x01, s % 256, s / 256 % 256] ++ tb) p 0
    (3 + tb.length) p.length (by simp; omega) (by omega)
  rw [hD]
  simp [u16_le, List.append_assoc]

/-- The from_rendered_wrapped_text fill loop produces tag `0x02`, two
point-size bytes, four wrap-width bytes, the nul-terminated text bytes, then
the path bytes. -/
theorem from_rendered_wrapped_text_eq (t p : List Nat) (s w : Nat) :
    from_rendered_wrapped_text t p s w
      = 0x02 :: (u16_le s ++ (u32_le w ++ ((t ++ [0]) ++ p))) := by
  simp only [from_rendered_wrapped_text]
  generalize t ++ [0] = tb
  have hA : List.replicate (1 + 2 + 4 + tb.length + p.length) 0
      = 0 :: 0 :: 0 :: 0 :: 0 :: 0 :: 0 :: List.replicate (tb.length + p.length) 0 := by
    have h : 1 + 2 + 4 + tb.length + p.length
        = (tb.length + p.length) + 1 + 1 + 1 + 1 + 1 + 1 + 1 := by omega
    rw [h]; simp [List.replicate_succ]
  rw [hA]
  simp only [writeSeq, List.set]
  have hC : writeSeq
      (0x02 :: s % 256 :: s / 256 % 256 :: w % 256 :: w / 256 % 256 ::
        w / 65536 % 256 :: w / 16777216 % 256 ::
        List.replicate (tb.length + p.length) 0) 7 tb
      = ([0x02, s % 256, s / 256 % 256, w % 256, w / 256 % 256,
          w / 65536 % 256, w / 16777216 % 256] ++ tb)
        ++ List.replicate p.length 0 := by
    have h := writeSeq_replicate_start
      [0x02, s % 256, s / 256 % 256, w % 256, w / 256 % 256,
        w / 65536 % 256, w / 16777216 % 256] tb p.length 7
      (tb.length + p.length) (by simp) rfl
    simpa [List.append_assoc] using h
  rw [hC]
  have hD := writeSeq_replicate_start
    ([0x02, s % 256, s / 256 % 256, w % 256, w / 256 % 256,
      w / 65536 % 256, w / 16777216 % 256] ++ tb) p 0
    (7 + tb.length) p.length (by simp; omega) (by omega)
  rw [hD]
  simp [u16_le, u32_le, List.append_assoc]

end FileOrRenderedTextKey

theorem u16_le_inj {a b : Nat} (ha : a < 65536) (hb : b < 65536)
    (h : u16_le a = u16_le b) : a = b := by
  simp [u16_le] at h
  omega

theorem u32_le_inj {a b : Nat} (ha : a < 4294967296) (hb : b < 4294967296)
    (h : u32_le a = u32_le b) : a = b := by
  simp [u32_le] at h
  omega

theorem nul_append_inj : ∀ (t1 : List Nat) (t2 r1 r2 : List Nat),
    0 ∉ t1 → 0 ∉ t2 → t1 ++ 0 :: r1 = t2 ++ 0 :: r2 → t1 = t2 ∧ r1 = r2 := by
  intro t1
  induction t1 with
  | nil =>
    intro t2 r1 r2 _ h2 h
    cases t2 with
    | nil => simpa using h
    | cons b tb =>
      simp at h
      exact absurd (h.1 ▸ List.mem_cons_self b tb) (h.1 ▸ h2)
  | cons a ta ih =>
    intro t2 r1 r2 h1 h2 h
    cases t2 with
    | nil =>
      simp at h
      exact absurd (h.1 ▸ List.mem_cons_self a ta) (h.1 ▸ h1)
    | cons b tb =>
      simp at h
      have h1' : 0 ∉ ta := fun hm => h1 (List.mem_cons_of_mem a hm)
      have h2' : 0 ∉ tb := fun hm => h2 (List.mem_cons_of_mem b hm)
      obtain ⟨hta, hr⟩ := ih tb r1 r2 h1' h2' h.2
      exact ⟨by simp [h.1, hta], hr⟩

/-- C1: for every two well-formed structured requests, the byte sequences
produced by `from_path`, `from_rendered_text` and `from_rendered_wrapped_text`
are equal iff the two requests have the same variant and equal field values;
no two distinct (variant, field-values) tuples encode to the same bytes. -/
theorem C1_key_encoding_injective (r1 r2 : Request) (h1 : r1.wf) (h2 : r2.wf) :
    r1.encode = r2.encode ↔ r1 = r2 := by
  constructor
  · intro h
    cases r1 with
    | filePath p1 =>
      cases r2 with
      | filePath p2 =>
        simp [Request.encode, FileOrRenderedTextKey.from_path_eq] at h
        simp [h]
      | renderedText t2 p2 s2 =>
        simp [Request.encode, FileOrRenderedTextKey.from_path_eq,
          FileOrRenderedTextKey.from_rendered_text_eq] at h
      | renderedWrappedText t2 p2 s2 w2 =>
        simp [Request.encode, FileOrRenderedTextKey.from_path_eq,
          FileOrRenderedTextKey.from_rendered_wrapped_text_eq] at h
    | renderedText t1 p1 s1 =>
      cases r2 with
      | filePath p2 =>
        simp [Request.encode, FileOrRenderedTextKey.from_path_eq,
          FileOrRenderedTextKey.from_rendered_text_eq] at h
      | renderedText t2 p2 s2 =>
        simp [Request.encode, FileOrRenderedTextKey.from_rendered_text_eq,
          u16_le] at h
        obtain ⟨hb0, hb1, htail⟩ := h
        obtain ⟨hz1, hs1⟩ := h1
        obtain ⟨hz2, hs2⟩ := h2
        obtain ⟨ht, hp⟩ := nul_append_inj t1 t2 p1 p2 hz1 hz2 (by simpa using htail)
        have hs : s1 = s2 := by omega
        simp [ht, hp, hs]
      | renderedWrappedText t2 p2 s2 w2 =>
        simp [Request.encode, FileOrRenderedTextKey.from_rendered_text_eq,
          FileOrRenderedTextKey.from_rendered_wrapped_text_eq] at h
    | renderedWrappedText t1 p1 s1 w1 =>
      cases r2 with
      | filePath p2 =>
        simp [Request.encode, FileOrRenderedTextKey.from_path_eq,
          FileOrRenderedTextKey.from_rendered_wrapped_text_eq] at h
      | renderedText t2 p2 s2 =>
        simp [Request.encode, FileOrRenderedTextKey.from_rendered_text_eq,
          FileOrRenderedTextKey.from_rendered_wrapped_text_eq] at h
      | renderedWrappedText t2 p2 s2 w2 =>
        simp [Request.encode, FileOrRenderedTextKey.from_rendered_wrapped_text_eq,
          u16_le, u32_le] at h
        obtain ⟨hb0, hb1, hw0, hw1, hw2, hw3, htail⟩ := h
        obtain ⟨hz1, hs1, hw1'⟩ := h1
        obtain ⟨hz2, hs2, hw2'⟩ := h2
        obtain ⟨ht, hp⟩ := nul_append_inj t1 t2 p1 p2 hz1 hz2 (by simpa using htail)
        have hs : s1 = s2 := by omega
        have hw : w1 = w2 := by omega
        simp [ht, hp, hs, hw]
  · intro h
    rw [h]

/-- Witness instantiating C1 at concrete requests: a rendered-text request
and a file-path request with overlapping raw bytes never produce equal keys. -/
theorem C1_key_encoding_injective_witness :
    (Request.renderedText [116, 101, 120, 116] [97, 98, 99] 16).encode
        = (Request.filePath [97, 98, 99]).encode
      ↔ Request.renderedText [116, 101, 120, 116] [97, 98, 99] 16
        = Request.filePath [97, 98, 99] :=
  C1_key_encoding_injective _ _ (by decide) (by decide)

/-- C6: the `FilePath` key is tag 0x00 then the raw path bytes; the
`RenderedText` key is tag 0x01, point size as two little-endian bytes, text
bytes with the terminating zero, then path bytes; the `RenderedWrappedText`
key additionally places the wrap width as four little-endian bytes before the
text; in particular path "tester/abc", text "text", size 16 gives
0x01, 0x10, 0x00, "text\0", "tester/abc". -/
theorem C6_encoding_layout :
    (∀ p : List Nat, FileOrRenderedTextKey.from_path p = 0x00 :: p)
    ∧ (∀ t p : List Nat, ∀ s : Nat,
        FileOrRenderedTextKey.from_rendered_text t p s
          = 0x01 :: (u16_le s ++ ((t ++ [0]) ++ p)))
    ∧ (∀ t p : List Nat, ∀ s w : Nat,
        FileOrRenderedTextKey.from_rendered_wrapped_text t p s w
          = 0x02 :: (u16_le s ++ (u32_le w ++ ((t ++ [0]) ++ p))))
    ∧ FileOrRenderedTextKey.from_rendered_text
        [116, 101, 120, 116] [116, 101, 115, 116, 101, 114, 47, 97, 98, 99] 16
        = [0x01, 0x10, 0x00, 116, 101, 120, 116, 0,
            116, 101, 115, 116, 101, 114, 47, 97, 98, 99]
    ∧ FileOrRenderedTextKey.from_rendered_wrapped_text
        [116, 101, 120, 116] [116, 101, 115, 116, 101, 114, 47, 97, 98, 99]
        16 4294967294
        = [0x02, 0x10, 0x00, 0xFE, 0xFF, 0xFF, 0xFF, 116, 101, 120, 116, 0,
            116, 101, 115, 116, 101, 114, 47, 97, 98, 99] :=
  ⟨FileOrRenderedTextKey.from_path_eq,
   FileOrRenderedTextKey.from_rendered_text_eq,
   FileOrRenderedTextKey.from_rendered_wrapped_text_eq,
   by decide, by decide⟩

namespace LruCache

variable {K V E : Type} [DecidableEq K]

theorem removeEntry_eq_none (l : List (K × V)) (k : K) :
    removeEntry l k = none ↔ k ∉ l.map Prod.fst := by
  induction l with
  | nil => simp [removeEntry]
  | cons e rest ih =>
    simp only [removeEntry, List.map_cons, List.mem_cons]
    by_cases h : e.1 = k
    · simp [h]
    · simp only [if_neg h]
      cases hr : removeEntry rest k with
      | none =>
        have hnot := ih.mp hr
        simp [Ne.symm h, hnot]
      | some vr =>
        obtain ⟨v, rest'⟩ := vr
        have hk : k ∈ rest.map Prod.fst := by
          by_contra hc
          exact absurd hr (by rw [ih.mpr hc]; simp)
        simp [hk]

theorem removeEntry_some_perm (l : List (K × V)) (k : K) (v : V)
    (rest : List (K × V)) (h : removeEntry l k = some (v, rest)) :
    l.Perm ((k, v) :: rest) := by
  induction l generalizing rest with
  | nil => simp [removeEntry] at h
  | cons e tl ih =>
    by_cases he : e.1 = k
    · simp only [removeEntry, if_pos he] at h
      have heq : (e.2, tl) = (v, rest) := Option.some.inj h
      have hv : e.2 = v := congrArg Prod.fst heq
      have hrest : tl = rest := congrArg Prod.snd heq
      have he2 : e = (k, v) := by
        cases e with
        | mk a b =>
          simp at he hv
          simp [he, hv]
      rw [he2, hrest]
    · simp only [removeEntry, if_neg he] at h
      cases hr : removeEntry tl k with
      | none => rw [hr] at h; simp at h
      | some vr =>
        obtain ⟨v', rest'⟩ := vr
        rw [hr] at h
        simp at h
        obtain ⟨hv, hrest⟩ := h
        rw [hv] at hr
        have hperm := (ih rest' hr).cons e
        rw [← hrest]
        exact hperm.trans (List.Perm.swap (k, v) e rest')

theorem removeEntry_some_length (l : List (K × V)) (k : K) (v : V)
    (rest : List (K × V)) (h : removeEntry l k = some (v, rest)) :
    l.length = rest.length + 1 := by
  have := (removeEntry_some_perm l k v rest h).length_eq
  simpa using this

theorem removeEntry_keys_perm (l : List (K × V)) (k : K) (v : V)
    (rest : List (K × V)) (h : removeEntry l k = some (v, rest)) :
    (l.map Prod.fst).Perm (k :: rest.map Prod.fst) := by
  have := (removeEntry_some_perm l k v rest h).map Prod.fst
  simpa using this

theorem removeEntry_last (l : List (K × V)) (k : K) (v : V)
    (h : k ∉ l.map Prod.fst) : removeEntry (l ++ [(k, v)]) k = some (v, l) := by
  induction l with
  | nil => simp [removeEntry]
  | cons e rest ih =>
    simp only [List.map_cons, List.mem_cons] at h
    push_neg at h
    have hne : ¬e.1 = k := fun hc => h.1 hc.symm
    simp only [List.cons_append, removeEntry, if_neg hne, List.append_eq,
      ih h.2]

end LruCache

/-- C2: a `try_get_or_insert` miss whose compute function fails returns that
error, invokes compute exactly once, and returns the cache literally
unchanged: no entry inserted, no eviction, identical size, key set and
recency order. -/
theorem C2_try_error_leaves_cache_unchanged {K V E : Type} [DecidableEq K]
    (c : LruCache K V) (k : K) (e : E) (compute : Unit → Except E V)
    (habs : k ∉ c.keys) (herr : compute () = .error e) :
    c.try_get_or_insert k compute = (.error e, c, 1) := by
  unfold LruCache.try_get_or_insert
  rw [(LruCache.removeEntry_eq_none c.entries k).mpr habs, herr]

/-- Witness for C2 at a concrete cache and failing compute. -/
theorem C2_try_error_leaves_cache_unchanged_witness :
    (LruCache.mk 2 [((1 : Nat), (10 : Nat))]).try_get_or_insert 5
        (fun _ => Except.error "io")
      = (Except.error "io", LruCache.mk 2 [(1, 10)], 1) :=
  C2_try_error_leaves_cache_unchanged _ 5 "io" _ (by decide) rfl

/-- C7: on a hit, `try_get_or_insert` returns the existing entry, promotes it
to most-recently-used keeping the key set intact, and never invokes compute
(invocation count 0); on a miss the compute function is invoked exactly
once. -/
theorem C7_hit_returns_existing_without_compute {K V E : Type} [DecidableEq K]
    (c : LruCache K V) (k : K) (compute : Unit → Except E V) :
    (∀ v rest, LruCache.removeEntry c.entries k = some (v, rest) →
      c.try_get_or_insert k compute
          = (Except.ok v, LruCache.mk c.cap ((k, v) :: rest), 0)
        ∧ ((c.try_get_or_insert k compute).2.1.keys).Perm c.keys)
    ∧ (k ∉ c.keys → (c.try_get_or_insert k compute).2.2 = 1) := by
  constructor
  · intro v rest h
    have hres : c.try_get_or_insert k compute
        = (Except.ok v, LruCache.mk c.cap ((k, v) :: rest), 0) := by
      unfold LruCache.try_get_or_insert
      rw [h]
    refine ⟨hres, ?_⟩
    rw [hres]
    exact (LruCache.removeEntry_keys_perm c.entries k v rest h).symm
  · intro habs
    unfold LruCache.try_get_or_insert
    rw [(LruCache.removeEntry_eq_none c.entries k).mpr habs]
    cases compute () <;> simp

/-- Witness for C7: a hit on key 1 returns the cached 10, promotes, and
reports zero compute invocations; a miss on key 5 invokes compute once. -/
theorem C7_hit_returns_existing_without_compute_witness :
    ((LruCache.mk 2 [((1 : Nat), (10 : Nat)), (2, 20)]).try_get_or_insert 1
        (fun _ => (Except.ok 99 : Except String Nat))
      = (Except.ok 10, LruCache.mk 2 [(1, 10), (2, 20)], 0))
    ∧ ((LruCache.mk 2 [((1 : Nat), (10 : Nat)), (2, 20)]).try_get_or_insert 5
        (fun _ => (Except.ok 99 : Except String Nat))).2.2 = 1 :=
  ⟨((C7_hit_returns_existing_without_compute
      (LruCache.mk 2 [(1, 10), (2, 20)]) 1 _).1 10 [(2, 20)] (by decide)).1,
   (C7_hit_returns_existing_without_compute
      (LruCache.mk 2 [(1, 10), (2, 20)]) 5 _).2 (by decide)⟩

/-- C9: `peek_mru` returns the most-recently-used entry when one exists and
`none` otherwise, and changes nothing: the cache after the peek is the very
same value, so its key set, size, recency order and every subsequent
operation outcome coincide with the un-peeked cache's. -/
theorem C9_peek_mru_effect_free {K V : Type} [DecidableEq K]
    (c : LruCache K V) :
    (c.peek_mru.1 = c.entries.head?)
    ∧ (c.peek_mru.1 = none ↔ c.entries = [])
    ∧ c.peek_mru.2 = c
    ∧ c.peek_mru.2.keys = c.keys
    ∧ c.peek_mru.2.size = c.size
    ∧ c.peek_mru.2.entries = c.entries := by
  refine ⟨rfl, ?_, rfl, rfl, rfl, rfl⟩
  cases h : c.entries <;> simp [LruCache.peek_mru, h]

namespace LruCache

variable {K V E : Type} [DecidableEq K]

theorem put_fresh (c : LruCache K V) (k : K) (v : V) (hfresh : k ∉ c.keys)
    (hlen : c.entries.length < c.cap) :
    c.put k v = ⟨c.cap, (k, v) :: c.entries⟩ := by
  unfold put insertNew
  rw [(removeEntry_eq_none c.entries k).mpr hfresh]
  simp [Nat.ne_of_lt hlen]

theorem put_fresh_full (c : LruCache K V) (k : K) (v : V)
    (hfresh : k ∉ c.keys) (hlen : c.entries.length = c.cap) :
    c.put k v = ⟨c.cap, (k, v) :: c.entries.dropLast⟩ := by
  unfold put insertNew
  rw [(removeEntry_eq_none c.entries k).mpr hfresh]
  simp [hlen]

theorem putList_fresh : ∀ (kvs : List (K × V)) (c : LruCache K V),
    (∀ e ∈ kvs, e.1 ∉ c.keys) → (kvs.map Prod.fst).Nodup →
    c.entries.length + kvs.length ≤ c.cap →
    putList c kvs = ⟨c.cap, kvs.reverse ++ c.entries⟩ := by
  intro kvs
  induction kvs with
  | nil => intro c _ _ _; simp [putList]
  | cons e rest ih =>
    intro c hfresh hnd hlen
    have he : e.1 ∉ c.keys := hfresh e (List.mem_cons_self e rest)
    have hlt : c.entries.length < c.cap := by
      simp only [List.length_cons] at hlen; omega
    have hput := put_fresh c e.1 e.2 he hlt
    have hstep : putList c (e :: rest) = putList (c.put e.1 e.2) rest := rfl
    rw [hstep, hput]
    have hnd' : (rest.map Prod.fst).Nodup := (List.nodup_cons.mp hnd).2
    have hres := ih ⟨c.cap, (e.1, e.2) :: c.entries⟩ ?_ hnd' ?_
    · rw [hres]
      simp
    · intro e' he'
      simp only [keys, List.map_cons, List.mem_cons]
      push_neg
      constructor
      · intro hc
        exact absurd (hc ▸ List.mem_map_of_mem Prod.fst he')
          (List.nodup_cons.mp hnd).1
      · exact hfresh e' (List.mem_cons_of_mem e he')
    · simp only [List.length_cons] at hlen ⊢
      omega

end LruCache

/-- C5: strict LRU eviction. Inserting N+1 pairwise-distinct keys into an
empty cache of capacity N leaves the first key absent and all later keys
present; and after inserting the first N keys, performing a lookup hit on the
first key, then inserting the (N+1)-st key, the evicted key is the second one
— the first and all others remain present. -/
theorem C5_strict_lru_eviction {K V : Type} [DecidableEq K]
    (cap : Nat) (e1 elast : K × V) (mid : List (K × V))
    (hnd : (((e1 :: mid) ++ [elast]).map Prod.fst).Nodup)
    (hlen : mid.length + 1 = cap) :
    (e1.1 ∉ (LruCache.putList (LruCache.empty cap) ((e1 :: mid) ++ [elast])).keys
      ∧ ∀ e ∈ mid ++ [elast],
          e.1 ∈ (LruCache.putList (LruCache.empty cap) ((e1 :: mid) ++ [elast])).keys)
    ∧ (∀ e2 mid', mid = e2 :: mid' →
        e2.1 ∉ ((((LruCache.putList (LruCache.empty cap)
              (e1 :: mid)).get e1.1).2).put elast.1 elast.2).keys
        ∧ e1.1 ∈ ((((LruCache.putList (LruCache.empty cap)
              (e1 :: mid)).get e1.1).2).put elast.1 elast.2).keys
        ∧ elast.1 ∈ ((((LruCache.putList (LruCache.empty cap)
              (e1 :: mid)).get e1.1).2).put elast.1 elast.2).keys
        ∧ ∀ e ∈ mid', e.1 ∈ ((((LruCache.putList (LruCache.empty cap)
              (e1 :: mid)).get e1.1).2).put elast.1 elast.2).keys) := by
  have hnd1 : ((e1 :: mid).map Prod.fst).Nodup := by
    rw [List.map_append] at hnd
    exact hnd.of_append_left
  have hc1 : LruCache.putList (LruCache.empty cap) (e1 :: mid)
      = ⟨cap, (e1 :: mid).reverse⟩ := by
    have := LruCache.putList_fresh (e1 :: mid) (LruCache.empty cap)
      (by intro e _; simp [LruCache.keys, LruCache.empty])
      hnd1 (by simp [LruCache.empty]; omega)
    simpa [LruCache.empty] using this
  have hlast_notin : elast.1 ∉ (e1 :: mid).map Prod.fst := by
    rw [List.map_append] at hnd
    intro hc
    exact (List.nodup_append.mp hnd).2.2 hc (by simp)
  constructor
  · -- part 1: insert all N+1
    have hsplit : LruCache.putList (LruCache.empty cap) ((e1 :: mid) ++ [elast])
        = ((LruCache.putList (LruCache.empty cap) (e1 :: mid)).put
            elast.1 elast.2) := by
      simp [LruCache.putList, List.foldl_append]
    rw [hsplit, hc1]
    have hfull : ((e1 :: mid).reverse).length = cap := by simp; omega
    have hput := LruCache.put_fresh_full
      (⟨cap, (e1 :: mid).reverse⟩ : LruCache K V) elast.1 elast.2
      (by
        simp only [LruCache.keys]
        intro hc
        rw [List.map_reverse, List.mem_reverse] at hc
        exact hlast_notin hc)
      (by simpa using hfull)
    rw [hput]
    have hdrop : ((e1 :: mid).reverse).dropLast = mid.reverse := by
      rw [List.reverse_cons, List.dropLast_concat]
    constructor
    · simp only [LruCache.keys, hdrop, List.map_cons, List.mem_cons]
      push_neg
      have he1ne : e1.1 ≠ elast.1 := by
        intro hc
        apply hlast_notin
        rw [List.map_cons, ← hc]
        exact List.mem_cons_self _ _
      have he1mid : e1.1 ∉ mid.map Prod.fst := (List.nodup_cons.mp hnd1).1
      refine ⟨he1ne, ?_⟩
      intro hc
      rw [List.map_reverse, List.mem_reverse] at hc
      exact he1mid hc
    · intro e he
      simp only [List.mem_append, List.mem_singleton] at he
      simp only [LruCache.keys, hdrop, List.map_cons, List.mem_cons]
      cases he with
      | inl h =>
        refine Or.inr ?_
        rw [List.map_reverse, List.mem_reverse]
        exact List.mem_map_of_mem Prod.fst h
      | inr h => exact Or.inl (by rw [h])
  · -- part 2: promotion protects the first key; the second is evicted
    intro e2 mid' hmid
    subst hmid
    have hx : (e1 :: e2 :: mid').reverse = (mid'.reverse ++ [e2]) ++ [e1] := by
      simp
    have hget : ((⟨cap, (e1 :: e2 :: mid').reverse⟩ : LruCache K V).get e1.1)
        = (some e1.2, ⟨cap, (e1.1, e1.2) :: (mid'.reverse ++ [e2])⟩) := by
      unfold LruCache.get
      have hr := LruCache.removeEntry_last (mid'.reverse ++ [e2]) e1.1 e1.2 ?_
      · rw [show ((⟨cap, (e1 :: e2 :: mid').reverse⟩ : LruCache K V).entries)
            = (mid'.reverse ++ [e2]) ++ [e1] from by simp [hx]]
        rw [hr]
      · have h1 : e1.1 ∉ (e2 :: mid').map Prod.fst := (List.nodup_cons.mp hnd1).1
        simp only [List.map_cons, List.mem_cons] at h1
        push_neg at h1
        intro hc
        rw [List.map_append, List.mem_append] at hc
        rcases hc with hh | hh
        · exact h1.2 (by rwa [List.map_reverse, List.mem_reverse] at hh)
        · exact h1.1 (by simpa using hh)
    rw [hc1, hget]
    have hnd2 : ((e2 :: mid').map Prod.fst).Nodup := (List.nodup_cons.mp hnd1).2
    have he1ne2 : e1.1 ≠ e2.1 := by
      intro hc
      exact (List.nodup_cons.mp hnd1).1 (by simp [hc])
    have he2mid : e2.1 ∉ mid'.map Prod.fst := (List.nodup_cons.mp hnd2).1
    have hlaste2 : elast.1 ≠ e2.1 := by
      intro hc
      exact hlast_notin (by simp [hc])
    have hlaste1 : elast.1 ≠ e1.1 := by
      intro hc
      exact hlast_notin (by simp [hc])
    have hlastmid : elast.1 ∉ mid'.map Prod.fst := by
      intro hc
      exact hlast_notin (by simp [hc])
    have hfresh2 : elast.1 ∉ (LruCache.mk (K := K) (V := V) cap
        ((e1.1, e1.2) :: (mid'.reverse ++ [e2]))).keys := by
      simp only [LruCache.keys, List.map_cons, List.map_append,
        List.mem_cons, List.mem_append]
      push_neg
      refine ⟨hlaste1, ?_, by simpa using hlaste2⟩
      intro hc
      rw [List.map_reverse, List.mem_reverse] at hc
      exact hlastmid hc
    have hfull2 : ((e1.1, e1.2) :: (mid'.reverse ++ [e2])).length = cap := by
      simp only [List.length_cons] at hlen
      simp
      omega
    have hc3 : (LruCache.mk (K := K) (V := V) cap
          ((e1.1, e1.2) :: (mid'.reverse ++ [e2]))).put elast.1 elast.2
        = ⟨cap, (elast.1, elast.2) :: (e1.1, e1.2) :: mid'.reverse⟩ := by
      rw [LruCache.put_fresh_full _ _ _ hfresh2 (by simpa using hfull2)]
      have hdl : ((e1.1, e1.2) :: (mid'.reverse ++ [e2])).dropLast
          = (e1.1, e1.2) :: mid'.reverse := by
        rw [show ((e1.1, e1.2) :: (mid'.reverse ++ [e2]))
            = ((e1.1, e1.2) :: mid'.reverse) ++ [e2] from by simp,
          List.dropLast_concat]
      simp [hdl]
    rw [hc3]
    refine ⟨?_, ?_, ?_, ?_⟩
    · simp only [LruCache.keys, List.map_cons, List.mem_cons]
      push_neg
      refine ⟨Ne.symm hlaste2, ?_, ?_⟩
      · exact fun hc => he1ne2 hc.symm
      · intro hc
        rw [List.map_reverse, List.mem_reverse] at hc
        exact he2mid hc
    · simp [LruCache.keys]
    · simp [LruCache.keys]
    · intro e he
      simp only [LruCache.keys, List.map_cons, List.mem_cons]
      refine Or.inr (Or.inr ?_)
      rw [List.map_reverse, List.mem_reverse]
      exact List.mem_map_of_mem Prod.fst he

/-- Witness for C5 with capacity 2 and keys 1, 2, 3: after putting 1, 2, 3,
key 1 is evicted; and after putting 1, 2, getting 1, then putting 3, key 2 is
the evicted one while 1 survives. -/
theorem C5_strict_lru_eviction_witness :
    ((1 : Nat) ∉ (LruCache.putList (LruCache.empty 2)
        ((((1 : Nat), (10 : Nat)) :: [(2, 20)]) ++ [(3, 30)])).keys)
    ∧ ((2 : Nat) ∉ ((((LruCache.putList (LruCache.empty 2)
        (((1 : Nat), (10 : Nat)) :: [(2, 20)])).get 1).2).put 3 30).keys)
    ∧ ((1 : Nat) ∈ ((((LruCache.putList (LruCache.empty 2)
        (((1 : Nat), (10 : Nat)) :: [(2, 20)])).get 1).2).put 3 30).keys) :=
  ⟨(C5_strict_lru_eviction 2 (1, 10) (3, 30) [(2, 20)] (by decide) rfl).1.1,
   ((C5_strict_lru_eviction 2 (1, 10) (3, 30) [(2, 20)] (by decide) rfl).2
      (2, 20) [] rfl).1,
   (((C5_strict_lru_eviction 2 (1, 10) (3, 30) [(2, 20)] (by decide) rfl).2
      (2, 20) [] rfl).2).1⟩

namespace LruCache

variable {K V E : Type} [DecidableEq K]

theorem wf_insertNew (c : LruCache K V) (k : K) (v : V) (hwf : c.wf)
    (hfresh : k ∉ c.keys) : (c.insertNew k v).wf := by
  obtain ⟨hnd, hle, hcap⟩ := hwf
  unfold insertNew
  by_cases h : c.entries.length = c.cap
  · simp only [if_pos h]
    refine ⟨?_, ?_, hcap⟩
    · simp only [keys, List.map_cons]
      refine List.nodup_cons.mpr ⟨?_, ?_⟩
      · intro hc
        rw [List.map_dropLast] at hc
        exact hfresh ((List.dropLast_sublist (c.entries.map Prod.fst)).subset hc)
      · rw [List.map_dropLast]
        exact hnd.sublist (List.dropLast_sublist (c.entries.map Prod.fst))
    · simp only [size, List.length_cons, List.length_dropLast]
      omega
  · simp only [if_neg h]
    refine ⟨?_, ?_, hcap⟩
    · simp only [keys, List.map_cons]
      exact List.nodup_cons.mpr ⟨hfresh, hnd⟩
    · simp only [size, List.length_cons]
      simp only [size] at hle
      omega

theorem wf_promote (c : LruCache K V) (k : K) (v : V) (rest : List (K × V))
    (h : removeEntry c.entries k = some (v, rest)) (hwf : c.wf) :
    (LruCache.mk (K := K) (V := V) c.cap ((k, v) :: rest)).wf := by
  obtain ⟨hnd, hle, hcap⟩ := hwf
  have hperm := removeEntry_keys_perm c.entries k v rest h
  refine ⟨?_, ?_, hcap⟩
  · exact (hperm.nodup_iff).mp hnd
  · have hlen := removeEntry_some_length c.entries k v rest h
    simp only [size, List.length_cons] at hle ⊢
    omega

theorem wf_step (c : LruCache K V) (op : Op K V E) (hwf : c.wf) :
    (step c op).wf ∧ (step c op).cap = c.cap := by
  cases op with
  | opPut k v =>
    simp only [step, put]
    cases h : removeEntry c.entries k with
    | some vr =>
      obtain ⟨v', rest⟩ := vr
      exact ⟨wf_promote c k v' rest h hwf, rfl⟩
    | none =>
      refine ⟨wf_insertNew c k v hwf ((removeEntry_eq_none _ _).mp h), ?_⟩
      unfold insertNew
      by_cases hl : c.entries.length = c.cap <;> simp [hl]
  | opGet k =>
    simp only [step, get]
    cases h : removeEntry c.entries k with
    | some vr =>
      obtain ⟨v', rest⟩ := vr
      exact ⟨wf_promote c k v' rest h hwf, rfl⟩
    | none => exact ⟨hwf, rfl⟩
  | opTryGetOrInsert k r =>
    simp only [step, try_get_or_insert]
    cases h : removeEntry c.entries k with
    | some vr =>
      obtain ⟨v', rest⟩ := vr
      exact ⟨wf_promote c k v' rest h hwf, rfl⟩
    | none =>
      cases r with
      | error e => exact ⟨hwf, rfl⟩
      | ok v =>
        refine ⟨wf_insertNew c k v hwf ((removeEntry_eq_none _ _).mp h), ?_⟩
        unfold insertNew
        by_cases hl : c.entries.length = c.cap <;> simp [hl]
  | opGetOrInsert k v =>
    simp only [step, get_or_insert]
    cases h : removeEntry c.entries k with
    | some vr =>
      obtain ⟨v', rest⟩ := vr
      exact ⟨wf_promote c k v' rest h hwf, rfl⟩
    | none =>
      refine ⟨wf_insertNew c k v hwf ((removeEntry_eq_none _ _).mp h), ?_⟩
      unfold insertNew
      by_cases hl : c.entries.length = c.cap <;> simp [hl]
  | opPeekMru => exact ⟨hwf, rfl⟩
  | opRemove k =>
    simp only [step, remove]
    cases h : removeEntry c.entries k with
    | some vr =>
      obtain ⟨v', rest⟩ := vr
      obtain ⟨hnd, hle, hcap⟩ := hwf
      have hperm := removeEntry_keys_perm c.entries k v' rest h
      have hlen := removeEntry_some_length c.entries k v' rest h
      refine ⟨⟨?_, ?_, hcap⟩, rfl⟩
      · exact (List.nodup_cons.mp ((hperm.nodup_iff).mp hnd)).2
      · simp only [size] at hle ⊢
        omega
    | none => exact ⟨hwf, rfl⟩

theorem wf_foldl (ops : List (Op K V E)) : ∀ c : LruCache K V, c.wf →
    (ops.foldl step c).wf ∧ (ops.foldl step c).cap = c.cap := by
  induction ops with
  | nil => intro c hwf; exact ⟨hwf, rfl⟩
  | cons op rest ih =>
    intro c hwf
    have h1 := wf_step c op hwf
    have h2 := ih (step c op) h1.1
    exact ⟨h2.1, h2.2.trans h1.2⟩

end LruCache

/-- C8: a bounded cache constructed with capacity N ≥ 1 holds at most N
entries after every sequence of operations and its capacity is never
resized; and whenever a fresh key is admitted while the size equals N, the
least-recently-used entry is evicted before the new entry is admitted: the
LRU key is afterwards absent, the new key present, and the size is still
exactly N. -/
theorem C8_capacity_invariant {K V E : Type} [DecidableEq K]
    (cap : Nat) (hcap : 1 ≤ cap) (ops : List (LruCache.Op K V E)) :
    ((ops.foldl LruCache.step (LruCache.empty cap)).size ≤ cap
      ∧ (ops.foldl LruCache.step (LruCache.empty cap)).cap = cap)
    ∧ (∀ (c : LruCache K V) (k : K) (v : V) (elru : K × V),
        c.wf → c.size = c.cap → k ∉ c.keys →
        c.entries.getLast? = some elru →
        elru.1 ∉ (c.insertNew k v).keys
          ∧ (c.insertNew k v).size = c.cap
          ∧ k ∈ (c.insertNew k v).keys) := by
  constructor
  · have hwf0 : (LruCache.empty cap : LruCache K V).wf := by
      refine ⟨by simp [LruCache.keys, LruCache.empty], ?_, hcap⟩
      simp [LruCache.size, LruCache.empty]
    have h := LruCache.wf_foldl ops (LruCache.empty cap) hwf0
    refine ⟨?_, h.2⟩
    have := h.1.2.1
    rw [h.2] at this
    exact this
  · intro c k v elru hwf hfull hfresh hlast
    obtain ⟨hnd, hle, hc1⟩ := hwf
    have hne : c.entries ≠ [] := by
      intro hc
      rw [hc] at hlast
      simp at hlast
    have hsplit : c.entries.dropLast ++ [c.entries.getLast hne] = c.entries :=
      List.dropLast_append_getLast hne
    have hgl : c.entries.getLast hne = elru := by
      have := List.getLast?_eq_getLast c.entries hne
      rw [this] at hlast
      exact Option.some.inj hlast
    rw [hgl] at hsplit
    have hin : (c.insertNew k v)
        = ⟨c.cap, (k, v) :: c.entries.dropLast⟩ := by
      unfold LruCache.insertNew
      simp only [LruCache.size] at hfull
      simp [hfull]
    rw [hin]
    have hdisj : elru.1 ∉ (c.entries.dropLast).map Prod.fst := by
      have hnd' : ((c.entries.dropLast ++ [elru]).map Prod.fst).Nodup := by
        rw [hsplit]; exact hnd
      rw [List.map_append] at hnd'
      intro hc
      exact (List.nodup_append.mp hnd').2.2 hc (by simp)
    have hneq : elru.1 ≠ k := by
      intro hc
      apply hfresh
      rw [← hc]
      have : elru ∈ c.entries := by
        rw [← hsplit]
        exact List.mem_append_right _ (List.mem_singleton.mpr rfl)
      exact List.mem_map_of_mem Prod.fst this
    refine ⟨?_, ?_, ?_⟩
    · simp only [LruCache.keys, List.map_cons, List.mem_cons]
      push_neg
      exact ⟨hneq, hdisj⟩
    · simp only [LruCache.size, List.length_cons, List.length_dropLast,
        LruCache.size] at hfull ⊢
      omega
    · simp [LruCache.keys]

/-- Witness for C8 at capacity 1: two puts keep the size at 1, and admitting
key 2 into the full cache `[(1, 10)]` evicts key 1 and keeps size 1. -/
theorem C8_capacity_invariant_witness :
    ((([LruCache.Op.opPut 1 10, LruCache.Op.opPut 2 20] :
        List (LruCache.Op Nat Nat String)).foldl LruCache.step
        (LruCache.empty 1)).size ≤ 1)
    ∧ ((1 : Nat) ∉ ((LruCache.mk 1 [((1 : Nat), (10 : Nat))]).insertNew 2 20).keys
        ∧ ((LruCache.mk 1 [((1 : Nat), (10 : Nat))]).insertNew 2 20).size = 1
        ∧ (2 : Nat) ∈ ((LruCache.mk 1 [((1 : Nat), (10 : Nat))]).insertNew 2 20).keys) :=
  ⟨(C8_capacity_invariant 1 (by decide)
      [LruCache.Op.opPut 1 10, LruCache.Op.opPut 2 20]).1.1,
   (C8_capacity_invariant (E := String) 1 (by decide) []).2
      (LruCache.mk 1 [(1, 10)]) 2 20 (1, 10)
      ⟨by decide, by decide, by decide⟩ rfl (by decide) rfl⟩

namespace LruCache

theorem get_or_insert_head_entries {K V : Type} [DecidableEq K]
    (c : LruCache K V) (k : K) (d : V) :
    ∃ rest, ((c.get_or_insert k d).2).entries
      = (k, (c.get_or_insert k d).1) :: rest := by
  unfold get_or_insert
  cases h : removeEntry c.entries k with
  | some vr =>
    obtain ⟨v, r⟩ := vr
    exact ⟨r, rfl⟩
  | none =>
    unfold insertNew
    by_cases hl : c.entries.length = c.cap
    · simp only [if_pos hl]
      exact ⟨c.entries.dropLast, rfl⟩
    · simp only [if_neg hl]
      exact ⟨c.entries, rfl⟩

theorem try_get_or_insert_ok_entries {K V E : Type} [DecidableEq K]
    (c : LruCache K V) (k : K) (compute : Unit → Except E V) (v : V)
    (h : (c.try_get_or_insert k compute).1 = .ok v) :
    ∃ rest, ((c.try_get_or_insert k compute).2.1).entries = (k, v) :: rest := by
  unfold try_get_or_insert at h ⊢
  cases hr : removeEntry c.entries k with
  | some vr =>
    obtain ⟨v', r⟩ := vr
    rw [hr] at h
    simp at h
    subst h
    exact ⟨r, rfl⟩
  | none =>
    rw [hr] at h
    cases hc : compute () with
    | error e => rw [hc] at h; simp at h
    | ok v' =>
      rw [hc] at h
      simp at h
      subst h
      unfold insertNew
      by_cases hl : c.entries.length = c.cap
      · simp only [if_pos hl]
        exact ⟨c.entries.dropLast, rfl⟩
      · simp only [if_neg hl]
        exact ⟨c.entries, rfl⟩

end LruCache

/-- After a successful render, the outer cache's most-recently-used entry is
the requested font file, and its inner cache holds at least one font
object. -/
theorem render_ok_outer_head {S : Type} (fs : FontSystem)
    (readFile : List Nat → Except String (List Nat))
    (openFont : List Nat → Nat → Except String Unit)
    (raster : Font → List Nat → Option Nat → Except String S)
    (font_file : List Nat) (point_size : Nat) (text : List Nat)
    (wrap_width : Option Nat) (surf : S)
    (h : (fs.render readFile openFont raster font_file point_size text
        wrap_width).1 = .ok surf) :
    ∃ inner rest,
      ((fs.render readFile openFont raster font_file point_size text
          wrap_width).2.1).num_font_objects.entries = (font_file, inner) :: rest
        ∧ inner.entries ≠ [] := by
  unfold FontSystem.render at h ⊢
  dsimp only at h ⊢
  obtain ⟨restg, hg⟩ := LruCache.get_or_insert_head_entries
    fs.num_font_objects font_file (LruCache.empty fs.num_font_objects_per_font)
  split at h
  next fo heq =>
    split at h
    next e heq2 => simp at h
    next font heq2 =>
      obtain ⟨rest2, h2⟩ := LruCache.try_get_or_insert_ok_entries _
        point_size (fun _ => Font.new openFont point_size fo.2.get_content)
        font heq2
      simp only [heq, heq2]
      refine ⟨((fs.num_font_objects.get_or_insert font_file
          (LruCache.empty fs.num_font_objects_per_font)).1.try_get_or_insert
          point_size fun _ => Font.new openFont point_size
            fo.2.get_content).2.1, restg, ?_, ?_⟩
      · simp only [LruCache.setMruValue, hg]
      · intro hc
        rw [hc] at h2
        simp at h2
  next heq =>
    split at h
    next e heq2 => simp at h
    next font_file_contents heq2 =>
      split at h
      next e heq3 => simp at h
      next font heq3 =>
        obtain ⟨rest2, h2⟩ := LruCache.try_get_or_insert_ok_entries _
          point_size (fun _ => Font.new openFont point_size font_file_contents)
          font heq3
        simp only [heq, heq2, heq3]
        refine ⟨((fs.num_font_objects.get_or_insert font_file
            (LruCache.empty fs.num_font_objects_per_font)).1.try_get_or_insert
            point_size fun _ => Font.new openFont point_size
              font_file_contents).2.1, restg, ?_, ?_⟩
        · simp only [LruCache.setMruValue, hg]
        · intro hc
          rw [hc] at h2
          simp at h2

/-- A render for a font file whose inner cache is at the MRU position and
nonempty performs no storage read at all. -/
theorem render_no_read_of_cached {S : Type} (fs : FontSystem)
    (readFile : List Nat → Except String (List Nat))
    (openFont : List Nat → Nat → Except String Unit)
    (raster : Font → List Nat → Option Nat → Except String S)
    (font_file : List Nat) (point_size : Nat) (text : List Nat)
    (wrap_width : Option Nat) (inner : LruCache Nat Font)
    (rest : List (List Nat × LruCache Nat Font))
    (hent : fs.num_font_objects.entries = (font_file, inner) :: rest)
    (hne : inner.entries ≠ []) :
    (fs.render readFile openFont raster font_file point_size text
        wrap_width).2.2 = 0 := by
  unfold FontSystem.render
  dsimp only
  have hget : fs.num_font_objects.get_or_insert font_file
      (LruCache.empty fs.num_font_objects_per_font)
      = (inner, ⟨fs.num_font_objects.cap, (font_file, inner) :: rest⟩) := by
    unfold LruCache.get_or_insert
    rw [hent]
    simp [LruCache.removeEntry]
  rw [hget]
  dsimp only
  obtain ⟨e, t, het⟩ : ∃ e t, inner.entries = e :: t := by
    cases hi : inner.entries with
    | nil => exact absurd hi hne
    | cons e t => exact ⟨e, t, rfl⟩
  have hpeek : inner.peek_mru.1 = some e := by
    simp [LruCache.peek_mru, het]
  simp only [hpeek]
  split <;> rfl

/-- C3: with outer font-cache capacity 1 and inner per-font capacity 2,
three successive successful renders of one font file at point sizes 10, 12,
14 read the file from storage exactly once in total, and afterwards the
size-10 font object has been evicted while sizes 12 and 14 remain cached;
more generally, any render for a font file whose previous render succeeded
performs no storage read at all (the shared byte buffer is reused). -/
theorem C3_shared_font_bytes :
    (let fs0 : FontSystem := ⟨2, LruCache.empty 1⟩
     let rf : List Nat → Except String (List Nat) := fun _ => .ok [7, 8, 9]
     let op : List Nat → Nat → Except String Unit := fun _ _ => .ok ()
     let ra : Font → List Nat → Option Nat → Except String Nat :=
       fun _ _ _ => .ok 0
     let step1 := fs0.render rf op ra [70] 10 [] none
     let step2 := step1.2.1.render rf op ra [70] 12 [] none
     let step3 := step2.2.1.render rf op ra [70] 14 [] none
     step1.1 = .ok 0 ∧ step2.1 = .ok 0 ∧ step3.1 = .ok 0
       ∧ step1.2.2 + step2.2.2 + step3.2.2 = 1
       ∧ step3.2.1.num_font_objects.entries.map (fun e => (e.1, e.2.keys))
           = [([70], [14, 12])])
    ∧ (∀ (S S' : Type) (fs : FontSystem)
        (readFile : List Nat → Except String (List Nat))
        (openFont : List Nat → Nat → Except String Unit)
        (raster : Font → List Nat → Option Nat → Except String S)
        (readFile2 : List Nat → Except String (List Nat))
        (openFont2 : List Nat → Nat → Except String Unit)
        (raster2 : Font → List Nat → Option Nat → Except String S')
        (font_file : List Nat) (s1 s2 : Nat) (t t2 : List Nat)
        (w w2 : Option Nat) (surf : S),
        (fs.render readFile openFont raster font_file s1 t w).1 = .ok surf →
        (((fs.render readFile openFont raster font_file s1 t w).2.1).render
            readFile2 openFont2 raster2 font_file s2 t2 w2).2.2 = 0) := by
  constructor
  · decide
  · intro S S' fs readFile openFont raster readFile2 openFont2 raster2
      font_file s1 s2 t t2 w w2 surf h
    obtain ⟨inner, rest, hent, hne⟩ :=
      render_ok_outer_head fs readFile openFont raster font_file s1 t w surf h
    exact render_no_read_of_cached _ readFile2 openFont2 raster2 font_file
      s2 t2 w2 inner rest hent hne

/-- Witness for C3's general clause: after one successful render, a second
render for the same file at another size performs zero storage reads, even
against a storage oracle that always fails. -/
theorem C3_shared_font_bytes_witness :
    (((FontSystem.render ⟨2, LruCache.empty 1⟩
        (fun _ => .ok [7, 8, 9]) (fun _ _ => .ok ())
        (fun _ _ _ => (.ok 0 : Except String Nat)) [70] 10 [] none).2.1).render
        (fun _ => .error "no storage") (fun _ _ => .ok ())
        (fun _ _ _ => (.ok 0 : Except String Nat)) [70] 12 [] none).2.2 = 0 :=
  C3_shared_font_bytes.2 Nat Nat ⟨2, LruCache.empty 1⟩
    (fun _ => .ok [7, 8, 9]) (fun _ _ => .ok ())
    (fun _ _ _ => (.ok 0 : Except String Nat))
    (fun _ => .error "no storage") (fun _ _ => .ok ())
    (fun _ _ _ => (.ok 0 : Except String Nat))
    [70] 10 12 [] [] none none 0 (by decide)

/-- C4 counterexample: with outer capacity 1 and an unrelated font already
cached, a render whose file read fails returns the error but does NOT leave
the font caches as before: the unrelated entry for path [65] has been
evicted and a partial entry — a newly inserted empty inner cache for the
requested path [66] — is present. -/
theorem C4_failed_load_counterexample :
    (let innerA : LruCache Nat Font := ⟨2, [(10, ⟨[1, 2], 10⟩)]⟩
     let fsA : FontSystem := ⟨2, ⟨1, [([65], innerA)]⟩⟩
     let res := fsA.render (fun _ => .error "io") (fun _ _ => .ok ())
        (fun _ _ _ => (.ok 0 : Except String Nat)) [66] 12 [] none
     res.1 = .error "io"
       ∧ res.2.1 ≠ fsA
       ∧ [65] ∉ res.2.1.num_font_objects.keys
       ∧ [66] ∈ res.2.1.num_font_objects.keys
       ∧ res.2.1.num_font_objects.entries = [([66], LruCache.empty 2)]) := by
  decide

/-- C4 amended: a render call that fails because the font file (absent from
the outer cache) cannot be read from storage propagates that error, performs
exactly one read attempt, and inserts no font object anywhere; but — unlike
the original claim — the outer cache is changed exactly as the infallible
`get_or_insert` changes it: a newly created empty inner cache for the
requested file sits at the MRU position, with the LRU outer entry evicted if
the outer cache was full. -/
theorem C4_failed_load_amended {S : Type} (fs : FontSystem)
    (readFile : List Nat → Except String (List Nat))
    (openFont : List Nat → Nat → Except String Unit)
    (raster : Font → List Nat → Option Nat → Except String S)
    (font_file : List Nat) (point_size : Nat) (text : List Nat)
    (wrap_width : Option Nat) (e : String)
    (habs : font_file ∉ fs.num_font_objects.keys)
    (herr : readFile font_file = .error e) :
    fs.render readFile openFont raster font_file point_size text wrap_width
      = (.error e,
         ⟨fs.num_font_objects_per_font,
          (fs.num_font_objects.get_or_insert font_file
            (LruCache.empty fs.num_font_objects_per_font)).2⟩, 1)
    ∧ (fs.num_font_objects.get_or_insert font_file
        (LruCache.empty fs.num_font_objects_per_font)).2.entries.head?
        = some (font_file, LruCache.empty fs.num_font_objects_per_font) := by
  have hmiss : LruCache.removeEntry fs.num_font_objects.entries font_file
      = none := (LruCache.removeEntry_eq_none _ _).mpr habs
  have hgoi : fs.num_font_objects.get_or_insert font_file
      (LruCache.empty fs.num_font_objects_per_font)
      = (LruCache.empty fs.num_font_objects_per_font,
         fs.num_font_objects.insertNew font_file
           (LruCache.empty fs.num_font_objects_per_font)) := by
    unfold LruCache.get_or_insert
    rw [hmiss]
  constructor
  · unfold FontSystem.render
    dsimp only
    rw [hgoi]
    dsimp only
    have hpk : (LruCache.empty fs.num_font_objects_per_font :
        LruCache Nat Font).peek_mru.1 = none := rfl
    simp only [hpk, herr]
  · rw [hgoi]
    unfold LruCache.insertNew
    by_cases hl : fs.num_font_objects.entries.length = fs.num_font_objects.cap
      <;> simp [hl]

/-- Witness for C4's amended claim at the counterexample input. -/
theorem C4_failed_load_amended_witness :
    FontSystem.render (⟨2, ⟨1, [([65],
        (⟨2, [(10, ⟨[1, 2], 10⟩)]⟩ : LruCache Nat Font))]⟩⟩ : FontSystem)
      (fun _ => .error "io") (fun _ _ => .ok ())
      (fun _ _ _ => (.ok 0 : Except String Nat)) [66] 12 [] none
      = (.error "io",
         ⟨2, ((⟨1, [([65], (⟨2, [(10, ⟨[1, 2], 10⟩)]⟩ : LruCache Nat Font))]⟩ :
            LruCache (List Nat) (LruCache Nat Font)).get_or_insert [66]
            (LruCache.empty 2)).2⟩, 1) :=
  (C4_failed_load_amended _ _ _ _ [66] 12 [] none "io" (by decide) rfl).1

/-- C10: adding a window under a name that is already registered returns an
error and leaves the whole system — including the existing window's render
system and its texture cache — unchanged (this holds whether or not the
canvas construction succeeded); removing a window under an unregistered name
returns an error and changes nothing. -/
theorem C10_window_registry_atomic (st : ChimericSystem) (name : String)
    (cc : Except String Nat) :
    (name ∈ st.windows.map Prod.fst →
      (∃ e, st.add_window name cc = (.error e, st)))
    ∧ (name ∉ st.windows.map Prod.fst →
      (∃ e, st.remove_window name = (.error e, st))) := by
  constructor
  · intro hmem
    cases cc with
    | error e => exact ⟨e, rfl⟩
    | ok v =>
      refine ⟨"window \"" ++ name
        ++ "\" can't be created because it already exists", ?_⟩
      unfold ChimericSystem.add_window
      simp [hmem]
  · intro hmem
    refine ⟨"window \"" ++ name
      ++ "\" can't be removed because it does not exist", ?_⟩
    unfold ChimericSystem.remove_window
    simp [hmem]

/-- Witness for C10 on a one-window system: re-adding "main" fails and the
system value is unchanged; removing "aux" (not present) fails likewise. -/
theorem C10_window_registry_atomic_witness :
    (∃ e, ChimericSystem.add_window
        ⟨⟨2, 1, 3⟩, ⟨2, LruCache.empty 1⟩,
          [("main", ⟨LruCache.empty 3, 7⟩)]⟩ "main" (.ok 9)
      = (.error e, ⟨⟨2, 1, 3⟩, ⟨2, LruCache.empty 1⟩,
          [("main", ⟨LruCache.empty 3, 7⟩)]⟩))
    ∧ (∃ e, ChimericSystem.remove_window
        ⟨⟨2, 1, 3⟩, ⟨2, LruCache.empty 1⟩,
          [("main", ⟨LruCache.empty 3, 7⟩)]⟩ "aux"
      = (.error e, ⟨⟨2, 1, 3⟩, ⟨2, LruCache.empty 1⟩,
          [("main", ⟨LruCache.empty 3, 7⟩)]⟩)) :=
  ⟨(C10_window_registry_atomic _ "main" (.ok 9)).1 (by decide),
   (C10_window_registry_atomic _ "aux" (.ok 9)).2 (by decide)⟩

end Chimeric
